import Mathlib

/-!
Verification of the FedChain consensus `MessageLog` (journal).

The definitions below are a shallow embedding of
`src/packages/blockchain/src/blockchain/consensus/_internal/journal.py`
together with the `Vote`/`Commit` entry classes of
`src/packages/blockchain/src/blockchain/models.py`.

Modelling conventions:
* Python byte strings (pubkeys, block hashes, transaction hashes) are
  modelled as `Nat`: the journal only ever compares them for equality.
* A nullable block hash (`bytes | None`, the "nil" target) is `Option Nat`.
* Python `dict` is an association list `List (Nat × ν)` with first-match
  lookup and in-place update (`dictSet` keeps the position of an existing
  key, appends a fresh one — insertion order, like a Python dict).
* Python `set[Vote]` / `set[Commit]` (whose identity is the pubkey alone,
  per `Vote.__eq__` / `Commit.__eq__` in models.py) is a `List` to which
  an element is appended only after a pubkey-membership test, so set size
  is list length and iteration yields each member once.
* `set(xs)` applied to a list of hashes is `xs.dedup` (same members, each
  once); since all per-element updates are commutative counter bumps, the
  unspecified Python set iteration order is irrelevant to every observable
  of the log.
-/

namespace FedChain

/-- Python `dict.get(k, None)`: first binding of key `k`, if any. -/
def dictGet? {ν : Type} : List (Nat × ν) → Nat → Option ν
  | [], _ => none
  | (k', v) :: rest, k => if k' = k then some v else dictGet? rest k

/-- Python `dict.get(k, dflt)`. -/
def dictGetD {ν : Type} (d : List (Nat × ν)) (k : Nat) (dflt : ν) : ν :=
  (dictGet? d k).getD dflt

/-- Python `d[k] = v`: overwrite the first binding of `k` in place, or append. -/
def dictSet {ν : Type} : List (Nat × ν) → Nat → ν → List (Nat × ν)
  | [], k, v => [(k, v)]
  | (k', v') :: rest, k, v =>
    if k' = k then (k, v) :: rest else (k', v') :: dictSet rest k v

/-- Pubkeys are opaque byte strings; equality-compared only. -/
abbrev PubKey := Nat

/-- Block and transaction hashes are opaque byte strings; equality-compared only. -/
abbrev Hash := Nat

/-- Modelled from the spec: `Transaction` (schema file `peer_pb2` is not under
src/) is an opaque payload with a derivable `tx_hash`; the journal only ever
uses a transaction through `get_tx_hash`, so a transaction is modelled by the
hash it derives to. -/
abbrev Tx := Nat

/-- Modelled from the spec: `get_tx_hash` lives in `blockchain.utils`, which is
not under src/; per the spec a transaction has a derivable `tx_hash`, so with
transactions modelled by their hashes the derivation is the identity. -/
def get_tx_hash (tx : Tx) : Hash := tx

/-- `models.Vote`: a prevote entry `(pubkey, target)`. Set identity is the
pubkey alone (`__eq__`/`__hash__` use only `pubkey`); membership tests below
compare pubkeys only. -/
structure Vote where
  pubkey : PubKey
  target : Option Hash
deriving DecidableEq, Repr

/-- `models.Commit`: a precommit entry, same shape and pubkey-only identity. -/
structure Commit where
  pubkey : PubKey
  target : Option Hash
deriving DecidableEq, Repr

/-- Modelled from the spec: `peer_pb2.Block` (generated schema, not under
src/) carries a header with a content-derived `hash` and a body with an
ordered transaction list; the journal reads exactly these fields. -/
structure BlockHeader where
  hash : Hash
deriving DecidableEq, Repr

structure BlockBody where
  transactions : List Tx
deriving DecidableEq, Repr

structure Block where
  header : BlockHeader
  body : BlockBody
deriving DecidableEq, Repr

/-- Modelled from the spec: `peer_pb2.PrevoteMessage` fields used by the
journal: round, pubkey, target hash (nil allowed), and the voter's
`invalid_txs` hashes. -/
structure PrevoteMessage where
  round : Nat
  pubkey : PubKey
  hash : Option Hash
  invalid_txs : List Hash
deriving DecidableEq, Repr

/-- Modelled from the spec: `peer_pb2.PrecommitMessage` fields used by the
journal: round, pubkey and target hash (nil allowed). -/
structure PrecommitMessage where
  round : Nat
  pubkey : PubKey
  hash : Option Hash
deriving DecidableEq, Repr

/-- Modelled from the spec: `peer_pb2.ProposeBlockRequest`; the journal reads
only `proposal.block`. -/
structure ProposeBlockRequest where
  round : Nat
  block : Block
deriving DecidableEq, Repr

/-- `models.Message`: the tagged union of the three wire messages. -/
inductive Message where
  | precommit : PrecommitMessage → Message
  | prevote : PrevoteMessage → Message
  | proposal : ProposeBlockRequest → Message
deriving DecidableEq, Repr

/-- The `MessageLog` state of journal.py: all five per-height maps. -/
structure MessageLog where
  prevotes : List (Nat × List Vote)
  precommits : List (Nat × List Commit)
  proposals : List (Nat × Block)
  tx_whitelist : List (Nat × List (Nat × Nat))
  tx_blacklist : List (Nat × List (Nat × Nat))
deriving DecidableEq, Repr

namespace MessageLog

/-- `MessageLog.__init__`: all maps empty. -/
def init : MessageLog := ⟨[], [], [], [], []⟩

/-- `count_prevotes`: size of `prevotes.get(round, [])`. -/
def count_prevotes (log : MessageLog) (round : Nat) : Nat :=
  (dictGetD log.prevotes round []).length

/-- `count_precommits`: size of `precommits.get(round, [])`. -/
def count_precommits (log : MessageLog) (round : Nat) : Nat :=
  (dictGetD log.precommits round []).length

/-- `count_prevotes_for`: number of recorded round-`round` votes whose target
equals `hash` (with `none` counting nil-votes). -/
def count_prevotes_for (log : MessageLog) (round : Nat) (hash : Option Hash) : Nat :=
  ((dictGetD log.prevotes round []).filter (fun vote => vote.target = hash)).length

/-- `count_precommits_for`: same for precommits. -/
def count_precommits_for (log : MessageLog) (round : Nat) (hash : Option Hash) : Nat :=
  ((dictGetD log.precommits round []).filter (fun commit => commit.target = hash)).length

/-- `get_candidate`: `proposals.get(hash, None)`; a nil hash matches no
proposal (proposal keys are genuine block-header hashes). -/
def get_candidate (log : MessageLog) (hash : Option Hash) : Option Block :=
  match hash with
  | none => none
  | some h => dictGet? log.proposals h

/-- `add_precommit`: lazily create `precommits[round]`, reject a duplicate
pubkey (pubkey-only `Commit` identity), otherwise insert. -/
def add_precommit (log : MessageLog) (pc : PrecommitMessage) : Bool × MessageLog :=
  let cur := dictGetD log.precommits pc.round []
  let log := { log with precommits := dictSet log.precommits pc.round cur }
  if cur.any (fun commit => commit.pubkey = pc.pubkey) then
    (false, log)
  else
    (true, { log with
      precommits := dictSet log.precommits pc.round (cur ++ [⟨pc.pubkey, pc.hash⟩]) })

/-- One blacklist iteration of `add_prevote`:
`if tx not in bl: bl[tx] = 0` then `bl[tx] += 1`. -/
def blStep (d : List (Nat × Nat)) (t : Hash) : List (Nat × Nat) :=
  let d' := if (dictGet? d t).isSome then d else dictSet d t 0
  dictSet d' t (dictGetD d' t 0 + 1)

/-- One whitelist iteration of `add_prevote`:
`if txid not in wl: wl[txid] = 0` then `if txid not in prevote.invalid_txs: wl[txid] += 1`. -/
def wlStep (invalid : List Hash) (d : List (Nat × Nat)) (t : Hash) : List (Nat × Nat) :=
  let d' := if (dictGet? d t).isSome then d else dictSet d t 0
  if t ∈ invalid then d' else dictSet d' t (dictGetD d' t 0 + 1)

/-- `add_prevote`: lazily open the round (creating `prevotes[R]`,
`tx_whitelist[R]`, `tx_blacklist[R]` together), reject a duplicate pubkey,
otherwise tally the blacklist from `set(invalid_txs)`, tally the whitelist
from the candidate block's transaction-hash set minus the bad set (when the
candidate is known), and insert the `Vote`. -/
def add_prevote (log : MessageLog) (pv : PrevoteMessage) : Bool × MessageLog :=
  let log :=
    if (dictGet? log.prevotes pv.round).isSome then log
    else { log with
      prevotes := dictSet log.prevotes pv.round [],
      tx_whitelist := dictSet log.tx_whitelist pv.round [],
      tx_blacklist := dictSet log.tx_blacklist pv.round [] }
  let pvs := dictGetD log.prevotes pv.round []
  if pvs.any (fun vote => vote.pubkey = pv.pubkey) then
    (false, log)
  else
    let block := log.get_candidate pv.hash
    let bad_txs := pv.invalid_txs.dedup
    let log := { log with
      tx_blacklist := dictSet log.tx_blacklist pv.round
        (bad_txs.foldl blStep (dictGetD log.tx_blacklist pv.round [])) }
    let log :=
      match block with
      | none => log
      | some b =>
        let good_txs :=
          ((b.body.transactions.map get_tx_hash).dedup).filter (fun t => t ∉ bad_txs)
        { log with
          tx_whitelist := dictSet log.tx_whitelist pv.round
            (good_txs.foldl (wlStep pv.invalid_txs) (dictGetD log.tx_whitelist pv.round [])) }
    (true, { log with
      prevotes := dictSet log.prevotes pv.round (pvs ++ [⟨pv.pubkey, pv.hash⟩]) })

/-- `add_proposal`: keyed by `proposal.block.header.hash`; first-writer-wins. -/
def add_proposal (log : MessageLog) (p : ProposeBlockRequest) : Bool × MessageLog :=
  if (dictGet? log.proposals p.block.header.hash).isSome then
    (false, log)
  else
    (true, { log with
      proposals := dictSet log.proposals p.block.header.hash p.block })

/-- `add_message`: dispatch on the message kind. -/
def add_message (log : MessageLog) : Message → Bool × MessageLog
  | .precommit m => log.add_precommit m
  | .prevote m => log.add_prevote m
  | .proposal m => log.add_proposal m

/-- `has_precommit_quorum`: `count_precommits_for(round, target) >= threshold`
(thresholds are Python ints, so `Int`). -/
def has_precommit_quorum (log : MessageLog) (round : Nat) (target : Option Hash)
    (threshold : Int) : Bool :=
  threshold ≤ (log.count_precommits_for round target : Int)

/-- `has_prevote_quorum`: `count_prevotes_for(round, target) >= threshold`. -/
def has_prevote_quorum (log : MessageLog) (round : Nat) (target : Option Hash)
    (threshold : Int) : Bool :=
  threshold ≤ (log.count_prevotes_for round target : Int)

/-- `get_invalid_txs`: blacklist keys at `round` whose count ≥ threshold. -/
def get_invalid_txs (log : MessageLog) (round : Nat) (threshold : Int) : List Hash :=
  ((dictGetD log.tx_blacklist round []).filter
    (fun x => threshold ≤ (x.2 : Int))).map (fun x => x.1)

/-- `get_valid_txs`: whitelist keys at `round` whose count ≥ threshold. -/
def get_valid_txs (log : MessageLog) (round : Nat) (threshold : Int) : List Hash :=
  ((dictGetD log.tx_whitelist round []).filter
    (fun x => threshold ≤ (x.2 : Int))).map (fun x => x.1)

/-- `reset`: clear all maps. -/
def reset (_log : MessageLog) : MessageLog := init

end MessageLog

/-- The states of a `MessageLog` reachable by any sequence of
`add_message` / `add_prevote` / `add_precommit` / `add_proposal` / `reset`
calls from a fresh log. -/
inductive Reachable : MessageLog → Prop where
  | init : Reachable MessageLog.init
  | add_message {s : MessageLog} (m : Message) :
      Reachable s → Reachable (s.add_message m).2
  | add_prevote {s : MessageLog} (pv : PrevoteMessage) :
      Reachable s → Reachable (s.add_prevote pv).2
  | add_precommit {s : MessageLog} (pc : PrecommitMessage) :
      Reachable s → Reachable (s.add_precommit pc).2
  | add_proposal {s : MessageLog} (p : ProposeBlockRequest) :
      Reachable s → Reachable (s.add_proposal p).2
  | reset {s : MessageLog} : Reachable s → Reachable s.reset

namespace MessageLog

/-- `prevotes.get(round, [])`, the recorded prevotes of a round. -/
def prevoteList (log : MessageLog) (round : Nat) : List Vote :=
  dictGetD log.prevotes round []

/-- `precommits.get(round, [])`, the recorded precommits of a round. -/
def precommitList (log : MessageLog) (round : Nat) : List Commit :=
  dictGetD log.precommits round []

/-- The observable whitelist counter `tx_whitelist[round][t]` (0 when absent). -/
def wlCount (log : MessageLog) (round : Nat) (t : Hash) : Nat :=
  dictGetD (dictGetD log.tx_whitelist round []) t 0

/-- The observable blacklist counter `tx_blacklist[round][t]` (0 when absent). -/
def blCount (log : MessageLog) (round : Nat) (t : Hash) : Nat :=
  dictGetD (dictGetD log.tx_blacklist round []) t 0

end MessageLog

/-- A concrete block for witness checks: hash 10, transactions `[1, 2, 2, 3]`
(tx 2 listed twice in the body). -/
def sampleBlock : Block := ⟨⟨10⟩, ⟨[1, 2, 2, 3]⟩⟩

/-- A concrete proposal carrying `sampleBlock`. -/
def sampleProposal : ProposeBlockRequest := ⟨0, sampleBlock⟩

/-- A concrete prevote: round 0, pubkey 5, target `sampleBlock`, tx 3 flagged invalid. -/
def samplePrevote : PrevoteMessage := ⟨0, 5, some 10, [3]⟩

/-- A second prevote from the same pubkey at the same round with a different
target and different invalid set. -/
def samplePrevote2 : PrevoteMessage := ⟨0, 5, some 99, [7]⟩

/-- A concrete precommit: round 0, pubkey 7, target `sampleBlock`. -/
def samplePrecommit : PrecommitMessage := ⟨0, 7, some 10⟩

/-- The log after recording `sampleProposal` in a fresh log. -/
def sampleLog0 : MessageLog := (MessageLog.init.add_proposal sampleProposal).2

/-- The log after additionally recording `samplePrevote`. -/
def sampleLog1 : MessageLog := (sampleLog0.add_prevote samplePrevote).2

theorem dictGet?_set_self {ν : Type} (d : List (Nat × ν)) (k : Nat) (v : ν) :
    dictGet? (dictSet d k v) k = some v := by
  induction d with
  | nil => simp [dictSet, dictGet?]
  | cons p rest ih =>
    obtain ⟨k', v'⟩ := p
    by_cases h : k' = k <;> simp [dictSet, dictGet?, h, ih]

theorem dictGet?_set_ne {ν : Type} (d : List (Nat × ν)) {k k' : Nat} (h : k' ≠ k) (v : ν) :
    dictGet? (dictSet d k v) k' = dictGet? d k' := by
  induction d with
  | nil => simp [dictSet, dictGet?, Ne.symm h]
  | cons p rest ih =>
    obtain ⟨k'', v''⟩ := p
    by_cases h2 : k'' = k
    · subst h2
      simp [dictSet, dictGet?, Ne.symm h, h]
    · simp [dictSet, dictGet?, h2, ih]

theorem dictGetD_set_self {ν : Type} (d : List (Nat × ν)) (k : Nat) (v dflt : ν) :
    dictGetD (dictSet d k v) k dflt = v := by
  simp [dictGetD, dictGet?_set_self]

theorem dictGetD_set_ne {ν : Type} (d : List (Nat × ν)) {k k' : Nat} (h : k' ≠ k) (v dflt : ν) :
    dictGetD (dictSet d k v) k' dflt = dictGetD d k' dflt := by
  simp [dictGetD, dictGet?_set_ne d h]

theorem dictGetD_set {ν : Type} (d : List (Nat × ν)) (k k' : Nat) (v dflt : ν) :
    dictGetD (dictSet d k v) k' dflt = if k' = k then v else dictGetD d k' dflt := by
  by_cases h : k' = k
  · subst h; simp [dictGetD_set_self]
  · simp [h, dictGetD_set_ne d h]

theorem dictSet_dictSet {ν : Type} (d : List (Nat × ν)) (k : Nat) (v v' : ν) :
    dictSet (dictSet d k v) k v' = dictSet d k v' := by
  induction d with
  | nil => simp [dictSet]
  | cons p rest ih =>
    obtain ⟨k'', v''⟩ := p
    by_cases h : k'' = k <;> simp [dictSet, h, ih]

theorem dictGetD_of_get?_none {ν : Type} {d : List (Nat × ν)} {k : Nat} (h : dictGet? d k = none)
    (dflt : ν) : dictGetD d k dflt = dflt := by
  simp [dictGetD, h]

theorem dictGetD_of_get?_some {ν : Type} {d : List (Nat × ν)} {k : Nat} {v : ν}
    (h : dictGet? d k = some v) (dflt : ν) : dictGetD d k dflt = v := by
  simp [dictGetD, h]

theorem dictGetD_nil {ν : Type} (k : Nat) (dflt : ν) :
    dictGetD ([] : List (Nat × ν)) k dflt = dflt := rfl

namespace MessageLog

theorem blStep_count (d : List (Nat × Nat)) (a t : Hash) :
    dictGetD (blStep d a) t 0 = if a = t then dictGetD d t 0 + 1 else dictGetD d t 0 := by
  cases hn : dictGet? d a with
  | some v =>
    have hp : (dictGet? d a).isSome = true := by rw [hn]; rfl
    simp only [blStep, hp, if_true, dictGetD_set]
    by_cases hat : a = t
    · subst hat; simp
    · simp [hat, Ne.symm hat]
  | none =>
    have hp : (dictGet? d a).isSome = false := by rw [hn]; rfl
    have h0 : dictGetD d a 0 = 0 := dictGetD_of_get?_none hn 0
    simp only [blStep, hp, Bool.false_eq_true, if_false, dictGetD_set]
    by_cases hat : a = t
    · subst hat; simp [h0]
    · simp [hat, Ne.symm hat]

theorem wlStep_count (inv : List Hash) (d : List (Nat × Nat)) (a t : Hash) :
    dictGetD (wlStep inv d a) t 0 =
      if a = t ∧ a ∉ inv then dictGetD d t 0 + 1 else dictGetD d t 0 := by
  by_cases hm : a ∈ inv
  · have hnot : ¬(a = t ∧ a ∉ inv) := by rintro ⟨rfl, hna⟩; exact hna hm
    cases hn : dictGet? d a with
    | some v =>
      have hp : (dictGet? d a).isSome = true := by rw [hn]; rfl
      simp [wlStep, hp, hm, hnot]
    | none =>
      have hp : (dictGet? d a).isSome = false := by rw [hn]; rfl
      have h0 : dictGetD d a 0 = 0 := dictGetD_of_get?_none hn 0
      simp only [wlStep, hp, Bool.false_eq_true, if_false, hm, if_true, hnot, dictGetD_set]
      by_cases hat : a = t
      · subst hat; simp [h0]
      · simp [hat, Ne.symm hat]
  · cases hn : dictGet? d a with
    | some v =>
      have hp : (dictGet? d a).isSome = true := by rw [hn]; rfl
      simp only [wlStep, hp, if_true, hm, if_false, dictGetD_set]
      by_cases hat : a = t
      · subst hat; simp [hm]
      · simp [hat, Ne.symm hat, hm]
    | none =>
      have hp : (dictGet? d a).isSome = false := by rw [hn]; rfl
      have h0 : dictGetD d a 0 = 0 := dictGetD_of_get?_none hn 0
      simp only [wlStep, hp, Bool.false_eq_true, if_false, hm, dictGetD_set]
      by_cases hat : a = t
      · subst hat; simp [h0, hm]
      · simp [hat, Ne.symm hat, hm]

theorem foldl_blStep_count (L : List Hash) (d : List (Nat × Nat)) (t : Hash) :
    dictGetD (L.foldl blStep d) t 0 = dictGetD d t 0 + L.count t := by
  induction L generalizing d with
  | nil => simp
  | cons a L ih =>
    rw [List.foldl_cons, ih, blStep_count]
    by_cases hat : a = t
    · simp only [hat, if_true, List.count_cons, if_pos rfl]
      simp
      omega
    · simp [List.count_cons, hat, Ne.symm hat]

theorem foldl_wlStep_count (inv : List Hash) (L : List Hash) (d : List (Nat × Nat)) (t : Hash) :
    dictGetD (L.foldl (wlStep inv) d) t 0 =
      dictGetD d t 0 + if t ∈ inv then 0 else L.count t := by
  induction L generalizing d with
  | nil => simp
  | cons a L ih =>
    rw [List.foldl_cons, ih, wlStep_count]
    by_cases hti : t ∈ inv
    · have hnot : ¬(a = t ∧ a ∉ inv) := by
        rintro ⟨rfl, hna⟩; exact hna hti
      simp [hti, hnot]
    · by_cases hat : a = t
      · subst hat
        simp only [hti, if_false, List.count_cons, if_pos rfl]
        simp [hti]
        omega
      · simp [hti, hat, Ne.symm hat, List.count_cons]

theorem get_candidate_ext (log log' : MessageLog) (h : log'.proposals = log.proposals)
    (hash : Option Hash) : log'.get_candidate hash = log.get_candidate hash := by
  cases hash <;> simp [get_candidate, h]

theorem add_prevote_dup (log : MessageLog) (pv : PrevoteMessage)
    (h : ∃ v ∈ dictGetD log.prevotes pv.round [], v.pubkey = pv.pubkey) :
    log.add_prevote pv = (false, log) := by
  obtain ⟨v, hv, hpk⟩ := h
  have hsome : (dictGet? log.prevotes pv.round).isSome = true := by
    cases hq : dictGet? log.prevotes pv.round with
    | none => rw [dictGetD_of_get?_none hq] at hv; simp at hv
    | some l => rfl
  have hany : (dictGetD log.prevotes pv.round []).any
      (fun vote => vote.pubkey = pv.pubkey) = true := by
    rw [List.any_eq_true]
    exact ⟨v, hv, by simp [hpk]⟩
  simp [add_prevote, hsome, hany]

theorem add_prevote_eq_of_fresh (log : MessageLog) (pv : PrevoteMessage)
    (hf : dictGet? log.prevotes pv.round = none) :
    log.add_prevote pv =
      (true,
        { prevotes := dictSet log.prevotes pv.round [⟨pv.pubkey, pv.hash⟩],
          precommits := log.precommits,
          proposals := log.proposals,
          tx_whitelist :=
            match log.get_candidate pv.hash with
            | none => dictSet log.tx_whitelist pv.round []
            | some b => dictSet log.tx_whitelist pv.round
                (((b.body.transactions.map get_tx_hash).dedup.filter
                    (fun t => t ∉ pv.invalid_txs.dedup)).foldl (wlStep pv.invalid_txs) []),
          tx_blacklist := dictSet log.tx_blacklist pv.round
            (pv.invalid_txs.dedup.foldl blStep []) }) := by
  have hsome : (dictGet? log.prevotes pv.round).isSome = false := by rw [hf]; rfl
  have hcand : ({ log with
      prevotes := dictSet log.prevotes pv.round [],
      tx_whitelist := dictSet log.tx_whitelist pv.round [],
      tx_blacklist := dictSet log.tx_blacklist pv.round [] } : MessageLog).get_candidate pv.hash
      = log.get_candidate pv.hash := get_candidate_ext _ _ rfl _
  simp only [add_prevote, hsome, Bool.false_eq_true, if_false, dictGetD_set_self,
    List.any_nil, hcand, List.nil_append]
  cases hc : log.get_candidate pv.hash with
  | none => simp [dictSet_dictSet]
  | some b => simp [dictSet_dictSet, dictGetD_set_self]

theorem add_prevote_eq_of_open (log : MessageLog) (pv : PrevoteMessage) (pvs : List Vote)
    (ho : dictGet? log.prevotes pv.round = some pvs)
    (h : pvs.any (fun vote => vote.pubkey = pv.pubkey) = false) :
    log.add_prevote pv =
      (true,
        { prevotes := dictSet log.prevotes pv.round (pvs ++ [⟨pv.pubkey, pv.hash⟩]),
          precommits := log.precommits,
          proposals := log.proposals,
          tx_whitelist :=
            match log.get_candidate pv.hash with
            | none => log.tx_whitelist
            | some b => dictSet log.tx_whitelist pv.round
                (((b.body.transactions.map get_tx_hash).dedup.filter
                    (fun t => t ∉ pv.invalid_txs.dedup)).foldl (wlStep pv.invalid_txs)
                  (dictGetD log.tx_whitelist pv.round [])),
          tx_blacklist := dictSet log.tx_blacklist pv.round
            (pv.invalid_txs.dedup.foldl blStep (dictGetD log.tx_blacklist pv.round [])) }) := by
  have hsome : (dictGet? log.prevotes pv.round).isSome = true := by rw [ho]; rfl
  have hd : dictGetD log.prevotes pv.round [] = pvs := dictGetD_of_get?_some ho []
  simp only [add_prevote, hsome, if_true, hd, h, Bool.false_eq_true, if_false]
  cases hc : log.get_candidate pv.hash with
  | none => simp
  | some b => simp

theorem add_precommit_frame (log : MessageLog) (pc : PrecommitMessage) :
    ((log.add_precommit pc).2).prevotes = log.prevotes ∧
    ((log.add_precommit pc).2).proposals = log.proposals ∧
    ((log.add_precommit pc).2).tx_whitelist = log.tx_whitelist ∧
    ((log.add_precommit pc).2).tx_blacklist = log.tx_blacklist := by
  simp only [add_precommit]
  split <;> exact ⟨rfl, rfl, rfl, rfl⟩

theorem add_precommit_precommitList (log : MessageLog) (pc : PrecommitMessage) (r : Nat) :
    ((log.add_precommit pc).2).precommitList r =
      if r = pc.round ∧
          (log.precommitList pc.round).any (fun commit => commit.pubkey = pc.pubkey) = false
      then log.precommitList pc.round ++ [⟨pc.pubkey, pc.hash⟩]
      else log.precommitList r := by
  by_cases hdup : (log.precommitList pc.round).any (fun commit => commit.pubkey = pc.pubkey)
      = false
  · simp only [add_precommit, precommitList] at hdup ⊢
    rw [hdup]
    simp only [Bool.false_eq_true, if_false]
    by_cases hr : r = pc.round
    · subst hr
      simp [dictGetD_set_self, hdup]
    · simp [dictGetD_set_ne _ hr, hr]
  · have hdup' : (log.precommitList pc.round).any (fun commit => commit.pubkey = pc.pubkey)
        = true := by
      cases hb : (log.precommitList pc.round).any (fun commit => commit.pubkey = pc.pubkey)
      · exact absurd hb hdup
      · rfl
    simp only [add_precommit, precommitList] at hdup' ⊢
    rw [hdup']
    simp only [if_true, hdup, and_false, if_false]
    by_cases hr : r = pc.round
    · subst hr
      simp [dictGetD_set_self]
    · simp [dictGetD_set_ne _ hr]

theorem any_pubkey_eq_false_of_forall {α : Type} (f : α → PubKey) {l : List α} {pk : PubKey}
    (h : ∀ v ∈ l, f v ≠ pk) : l.any (fun v => f v = pk) = false := by
  rw [List.any_eq_false]
  intro v hv
  simp [h v hv]

theorem forall_of_any_pubkey_eq_false {α : Type} (f : α → PubKey) {l : List α} {pk : PubKey}
    (h : l.any (fun v => f v = pk) = false) : ∀ v ∈ l, f v ≠ pk := by
  rw [List.any_eq_false] at h
  intro v hv
  have := h v hv
  simpa using this

theorem add_prevote_pubkey_mem_after (l : MessageLog) (pv : PrevoteMessage) :
    ∃ v ∈ ((l.add_prevote pv).2).prevoteList pv.round, v.pubkey = pv.pubkey := by
  cases hq : dictGet? l.prevotes pv.round with
  | none =>
    rw [add_prevote_eq_of_fresh l pv hq]
    refine ⟨⟨pv.pubkey, pv.hash⟩, ?_, rfl⟩
    simp [prevoteList, dictGetD_set_self]
  | some pvs =>
    by_cases hany : pvs.any (fun vote => vote.pubkey = pv.pubkey) = true
    · have hmem : ∃ v ∈ dictGetD l.prevotes pv.round [], v.pubkey = pv.pubkey := by
        rw [List.any_eq_true] at hany
        obtain ⟨v, hv, hp⟩ := hany
        exact ⟨v, by rw [dictGetD_of_get?_some hq]; exact hv, by simpa using hp⟩
      rw [add_prevote_dup l pv hmem]
      exact hmem
    · have hf : pvs.any (fun vote => vote.pubkey = pv.pubkey) = false := by
        cases hb : pvs.any (fun vote => vote.pubkey = pv.pubkey)
        · rfl
        · exact absurd hb hany
      rw [add_prevote_eq_of_open l pv pvs hq hf]
      refine ⟨⟨pv.pubkey, pv.hash⟩, ?_, rfl⟩
      simp [prevoteList, dictGetD_set_self]

theorem add_prevote_precommits_eq (log : MessageLog) (pv : PrevoteMessage) :
    ((log.add_prevote pv).2).precommits = log.precommits := by
  cases hq : dictGet? log.prevotes pv.round with
  | none => rw [add_prevote_eq_of_fresh log pv hq]
  | some pvs =>
    by_cases hany : pvs.any (fun vote => vote.pubkey = pv.pubkey) = true
    · have hmem : ∃ v ∈ dictGetD log.prevotes pv.round [], v.pubkey = pv.pubkey := by
        rw [List.any_eq_true] at hany
        obtain ⟨v, hv, hp⟩ := hany
        exact ⟨v, by rw [dictGetD_of_get?_some hq]; exact hv, by simpa using hp⟩
      rw [add_prevote_dup log pv hmem]
    · have hf : pvs.any (fun vote => vote.pubkey = pv.pubkey) = false := by
        cases hb : pvs.any (fun vote => vote.pubkey = pv.pubkey)
        · rfl
        · exact absurd hb hany
      rw [add_prevote_eq_of_open log pv pvs hq hf]

theorem add_prevote_proposals_eq (log : MessageLog) (pv : PrevoteMessage) :
    ((log.add_prevote pv).2).proposals = log.proposals := by
  cases hq : dictGet? log.prevotes pv.round with
  | none => rw [add_prevote_eq_of_fresh log pv hq]
  | some pvs =>
    by_cases hany : pvs.any (fun vote => vote.pubkey = pv.pubkey) = true
    · have hmem : ∃ v ∈ dictGetD log.prevotes pv.round [], v.pubkey = pv.pubkey := by
        rw [List.any_eq_true] at hany
        obtain ⟨v, hv, hp⟩ := hany
        exact ⟨v, by rw [dictGetD_of_get?_some hq]; exact hv, by simpa using hp⟩
      rw [add_prevote_dup log pv hmem]
    · have hf : pvs.any (fun vote => vote.pubkey = pv.pubkey) = false := by
        cases hb : pvs.any (fun vote => vote.pubkey = pv.pubkey)
        · rfl
        · exact absurd hb hany
      rw [add_prevote_eq_of_open log pv pvs hq hf]

theorem add_proposal_known (log : MessageLog) (p : ProposeBlockRequest)
    (h : (dictGet? log.proposals p.block.header.hash).isSome = true) :
    log.add_proposal p = (false, log) := by
  simp [add_proposal, h]

theorem add_proposal_new (log : MessageLog) (p : ProposeBlockRequest)
    (h : dictGet? log.proposals p.block.header.hash = none) :
    log.add_proposal p =
      (true, { log with
        proposals := dictSet log.proposals p.block.header.hash p.block }) := by
  have h' : (dictGet? log.proposals p.block.header.hash).isSome = false := by rw [h]; rfl
  simp [add_proposal, h']

theorem add_proposal_frame (log : MessageLog) (p : ProposeBlockRequest) :
    ((log.add_proposal p).2).prevotes = log.prevotes ∧
    ((log.add_proposal p).2).precommits = log.precommits ∧
    ((log.add_proposal p).2).tx_whitelist = log.tx_whitelist ∧
    ((log.add_proposal p).2).tx_blacklist = log.tx_blacklist := by
  simp only [add_proposal]
  split <;> exact ⟨rfl, rfl, rfl, rfl⟩

theorem filter_length_le_one {α : Type} (f : α → Nat) {l : List α}
    (hn : (l.map f).Nodup) (K : Nat) :
    (l.filter (fun x => f x = K)).length ≤ 1 := by
  induction l with
  | nil => simp
  | cons a l ih =>
    rw [List.map_cons, List.nodup_cons] at hn
    rw [List.filter_cons]
    by_cases hf : f a = K
    · have hfl : l.filter (fun x => decide (f x = K)) = [] := by
        rw [List.filter_eq_nil_iff]
        intro x hx
        simp only [decide_eq_true_eq]
        intro hxk
        exact hn.1 (hf ▸ hxk ▸ List.mem_map_of_mem f hx)
      simp [hf, hfl]
    · simp only [hf, decide_False, Bool.false_eq_true, if_false]
      exact ih hn.2

theorem pubkey_nodup_step_prevote (s : MessageLog) (pv : PrevoteMessage)
    (h1 : ∀ r, ((s.prevoteList r).map Vote.pubkey).Nodup) :
    ∀ r, ((((s.add_prevote pv).2).prevoteList r).map Vote.pubkey).Nodup := by
  intro r
  cases hq : dictGet? s.prevotes pv.round with
  | none =>
    rw [add_prevote_eq_of_fresh s pv hq]
    by_cases hr : r = pv.round
    · subst hr
      simp [prevoteList, dictGetD_set_self]
    · simp only [prevoteList, dictGetD_set_ne _ hr]
      exact h1 r
  | some pvs =>
    by_cases hany : pvs.any (fun vote => vote.pubkey = pv.pubkey) = true
    · have hmem : ∃ v ∈ dictGetD s.prevotes pv.round [], v.pubkey = pv.pubkey := by
        rw [List.any_eq_true] at hany
        obtain ⟨v, hv, hp⟩ := hany
        exact ⟨v, by rw [dictGetD_of_get?_some hq]; exact hv, by simpa using hp⟩
      rw [add_prevote_dup s pv hmem]
      exact h1 r
    · have hf : pvs.any (fun vote => vote.pubkey = pv.pubkey) = false := by
        cases hb : pvs.any (fun vote => vote.pubkey = pv.pubkey)
        · rfl
        · exact absurd hb hany
      rw [add_prevote_eq_of_open s pv pvs hq hf]
      by_cases hr : r = pv.round
      · subst hr
        simp only [prevoteList, dictGetD_set_self, List.map_append, List.nodup_append]
        refine ⟨?_, by simp, ?_⟩
        · have := h1 pv.round
          rw [prevoteList, dictGetD_of_get?_some hq] at this
          exact this
        · intro a ha hb
          simp only [List.map_cons, List.map_nil, List.mem_singleton] at hb
          subst hb
          rw [List.mem_map] at ha
          obtain ⟨v, hv, hvp⟩ := ha
          exact forall_of_any_pubkey_eq_false Vote.pubkey hf v hv hvp
      · simp only [prevoteList, dictGetD_set_ne _ hr]
        exact h1 r

theorem pubkey_nodup_step_precommit (s : MessageLog) (pc : PrecommitMessage)
    (h2 : ∀ r, ((s.precommitList r).map Commit.pubkey).Nodup) :
    ∀ r, ((((s.add_precommit pc).2).precommitList r).map Commit.pubkey).Nodup := by
  intro r
  rw [add_precommit_precommitList]
  split
  · rename_i hcond
    obtain ⟨hr, hfany⟩ := hcond
    simp only [List.map_append, List.nodup_append]
    refine ⟨h2 pc.round, by simp, ?_⟩
    intro a ha hb
    simp only [List.map_cons, List.map_nil, List.mem_singleton] at hb
    subst hb
    rw [List.mem_map] at ha
    obtain ⟨c, hc, hcp⟩ := ha
    exact forall_of_any_pubkey_eq_false Commit.pubkey hfany c hc hcp
  · exact h2 r

theorem reachable_pubkey_nodup (s : MessageLog) (hs : Reachable s) :
    (∀ r, ((s.prevoteList r).map Vote.pubkey).Nodup) ∧
    (∀ r, ((s.precommitList r).map Commit.pubkey).Nodup) := by
  induction hs with
  | init => exact ⟨fun r => by simp [prevoteList, init, dictGetD_nil],
      fun r => by simp [precommitList, init, dictGetD_nil]⟩
  | reset ih => exact ⟨fun r => by simp [prevoteList, reset, init, dictGetD_nil],
      fun r => by simp [precommitList, reset, init, dictGetD_nil]⟩
  | add_prevote pv hr ih =>
    refine ⟨pubkey_nodup_step_prevote _ pv ih.1, fun r => ?_⟩
    simp only [precommitList, add_prevote_precommits_eq]
    exact ih.2 r
  | add_precommit pc hr ih =>
    refine ⟨fun r => ?_, pubkey_nodup_step_precommit _ pc ih.2⟩
    simp only [prevoteList, (add_precommit_frame _ pc).1]
    exact ih.1 r
  | add_proposal p hr ih =>
    refine ⟨fun r => ?_, fun r => ?_⟩
    · simp only [prevoteList, (add_proposal_frame _ p).1]
      exact ih.1 r
    · simp only [precommitList, (add_proposal_frame _ p).2.1]
      exact ih.2 r
  | add_message m hr ih =>
    cases m with
    | prevote pv =>
      refine ⟨pubkey_nodup_step_prevote _ pv ih.1, fun r => ?_⟩
      simp only [add_message, precommitList, add_prevote_precommits_eq]
      exact ih.2 r
    | precommit pc =>
      refine ⟨fun r => ?_, pubkey_nodup_step_precommit _ pc ih.2⟩
      simp only [add_message, prevoteList, (add_precommit_frame _ pc).1]
      exact ih.1 r
    | proposal p =>
      refine ⟨fun r => ?_, fun r => ?_⟩
      · simp only [add_message, prevoteList, (add_proposal_frame _ p).1]
        exact ih.1 r
      · simp only [add_message, precommitList, (add_proposal_frame _ p).2.1]
        exact ih.2 r

/-- C1: vote uniqueness invariant — in every reachable `MessageLog` state,
for every round and pubkey there is at most one entry with that pubkey among
the recorded prevotes of the round, and at most one among the recorded
precommits, regardless of the vote targets. -/
theorem C1_vote_uniqueness (s : MessageLog) (hs : Reachable s) (R : Nat) (K : PubKey) :
    ((s.prevoteList R).filter (fun v => v.pubkey = K)).length ≤ 1 ∧
    ((s.precommitList R).filter (fun c => c.pubkey = K)).length ≤ 1 := by
  obtain ⟨h1, h2⟩ := reachable_pubkey_nodup s hs
  exact ⟨filter_length_le_one Vote.pubkey (h1 R) K,
    filter_length_le_one Commit.pubkey (h2 R) K⟩

/-- Witness for C1 at the concrete reachable state `sampleLog1` (one recorded
proposal, one recorded prevote from pubkey 5): pubkey 5 appears at most once
at round 0. -/
theorem C1_vote_uniqueness_witness :
    Reachable sampleLog1 ∧
    ((sampleLog1.prevoteList 0).filter (fun v => v.pubkey = 5)).length ≤ 1 :=
  ⟨Reachable.add_prevote samplePrevote
      (Reachable.add_proposal sampleProposal Reachable.init),
   (C1_vote_uniqueness sampleLog1
      (Reachable.add_prevote samplePrevote
        (Reachable.add_proposal sampleProposal Reachable.init)) 0 5).1⟩

theorem tally_bound_step_prevote (s : MessageLog) (pv : PrevoteMessage)
    (ih : ∀ r t, dictGetD (dictGetD s.tx_whitelist r []) t 0
          ≤ (dictGetD s.prevotes r []).length ∧
        dictGetD (dictGetD s.tx_blacklist r []) t 0
          ≤ (dictGetD s.prevotes r []).length) :
    ∀ r t, dictGetD (dictGetD ((s.add_prevote pv).2).tx_whitelist r []) t 0
          ≤ (dictGetD ((s.add_prevote pv).2).prevotes r []).length ∧
        dictGetD (dictGetD ((s.add_prevote pv).2).tx_blacklist r []) t 0
          ≤ (dictGetD ((s.add_prevote pv).2).prevotes r []).length := by
  intro r t
  cases hq : dictGet? s.prevotes pv.round with
  | none =>
    rw [add_prevote_eq_of_fresh s pv hq]
    by_cases hr : r = pv.round
    · subst hr
      constructor
      · cases hcand : s.get_candidate pv.hash with
        | none =>
          simp only [hcand, dictGetD_set_self, dictGetD_nil]
          simp
        | some b =>
          have hc : (((b.body.transactions.map get_tx_hash).dedup.filter
              (fun t => t ∉ pv.invalid_txs.dedup))).count t ≤ 1 :=
            List.nodup_iff_count_le_one.1 (List.Nodup.filter _ (List.nodup_dedup _)) t
          simp only [hcand, dictGetD_set_self, foldl_wlStep_count, dictGetD_nil,
            List.length_cons, List.length_nil]
          split
          · simp
          · omega
      · have hc : pv.invalid_txs.dedup.count t ≤ 1 :=
          List.nodup_iff_count_le_one.1 (List.nodup_dedup _) t
        simp only [dictGetD_set_self, foldl_blStep_count, dictGetD_nil,
          List.length_cons, List.length_nil]
        omega
    · constructor
      · cases hcand : s.get_candidate pv.hash with
        | none =>
          simp only [hcand, dictGetD_set_ne _ hr]
          exact (ih r t).1
        | some b =>
          simp only [hcand, dictGetD_set_ne _ hr]
          exact (ih r t).1
      · simp only [dictGetD_set_ne _ hr]
        exact (ih r t).2
  | some pvs =>
    by_cases hany : pvs.any (fun vote => vote.pubkey = pv.pubkey) = true
    · have hmem : ∃ v ∈ dictGetD s.prevotes pv.round [], v.pubkey = pv.pubkey := by
        rw [List.any_eq_true] at hany
        obtain ⟨v, hv, hp⟩ := hany
        exact ⟨v, by rw [dictGetD_of_get?_some hq]; exact hv, by simpa using hp⟩
      rw [add_prevote_dup s pv hmem]
      exact ih r t
    · have hf : pvs.any (fun vote => vote.pubkey = pv.pubkey) = false := by
        cases hb : pvs.any (fun vote => vote.pubkey = pv.pubkey)
        · rfl
        · exact absurd hb hany
      rw [add_prevote_eq_of_open s pv pvs hq hf]
      have hlen : dictGetD s.prevotes pv.round [] = pvs := dictGetD_of_get?_some hq []
      by_cases hr : r = pv.round
      · subst hr
        have ihw := (ih pv.round t).1
        have ihb := (ih pv.round t).2
        rw [hlen] at ihw ihb
        constructor
        · cases hcand : s.get_candidate pv.hash with
          | none =>
            simp only [hcand, dictGetD_set_self, List.length_append,
              List.length_cons, List.length_nil]
            omega
          | some b =>
            have hc : (((b.body.transactions.map get_tx_hash).dedup.filter
                (fun t => t ∉ pv.invalid_txs.dedup))).count t ≤ 1 :=
              List.nodup_iff_count_le_one.1 (List.Nodup.filter _ (List.nodup_dedup _)) t
            simp only [hcand, dictGetD_set_self, foldl_wlStep_count,
              List.length_append, List.length_cons, List.length_nil]
            split
            · omega
            · omega
        · have hc : pv.invalid_txs.dedup.count t ≤ 1 :=
            List.nodup_iff_count_le_one.1 (List.nodup_dedup _) t
          simp only [dictGetD_set_self, foldl_blStep_count, List.length_append,
            List.length_cons, List.length_nil]
          omega
      · constructor
        · cases hcand : s.get_candidate pv.hash with
          | none =>
            simp only [hcand, dictGetD_set_ne _ hr]
            exact (ih r t).1
          | some b =>
            simp only [hcand, dictGetD_set_ne _ hr]
            exact (ih r t).1
        · simp only [dictGetD_set_ne _ hr]
          exact (ih r t).2

theorem reachable_tally_bound (s : MessageLog) (hs : Reachable s) :
    ∀ r t, dictGetD (dictGetD s.tx_whitelist r []) t 0
          ≤ (dictGetD s.prevotes r []).length ∧
        dictGetD (dictGetD s.tx_blacklist r []) t 0
          ≤ (dictGetD s.prevotes r []).length := by
  induction hs with
  | init => intro r t; simp [init, dictGetD_nil]
  | reset ih => intro r t; simp [reset, init, dictGetD_nil]
  | add_prevote pv hr ih => exact tally_bound_step_prevote _ pv ih
  | @add_precommit s1 pc hr ih =>
    intro r t
    have hf := add_precommit_frame s1 pc
    simp only [hf.1, hf.2.2.1, hf.2.2.2]
    exact ih r t
  | @add_proposal s1 p hr ih =>
    intro r t
    have hf := add_proposal_frame s1 p
    simp only [hf.1, hf.2.2.1, hf.2.2.2]
    exact ih r t
  | @add_message s1 m hr ih =>
    cases m with
    | prevote pv => exact tally_bound_step_prevote s1 pv ih
    | precommit pc =>
      intro r t
      have hf := add_precommit_frame s1 pc
      simp only [add_message, hf.1, hf.2.2.1, hf.2.2.2]
      exact ih r t
    | proposal p =>
      intro r t
      have hf := add_proposal_frame s1 p
      simp only [add_message, hf.1, hf.2.2.1, hf.2.2.2]
      exact ih r t

/-- C6: tally bound invariant — in every reachable `MessageLog` state, every
whitelist and blacklist counter of a round is bounded by the number of
recorded prevotes for that round. -/
theorem C6_tally_bound (s : MessageLog) (hs : Reachable s) (R : Nat) (t : Hash) :
    s.wlCount R t ≤ s.count_prevotes R ∧ s.blCount R t ≤ s.count_prevotes R :=
  reachable_tally_bound s hs R t

/-- Witness for C6 at the concrete reachable state `sampleLog1`: the whitelist
counter of tx 1 at round 0 is bounded by the single recorded prevote. -/
theorem C6_tally_bound_witness :
    Reachable sampleLog1 ∧
    sampleLog1.wlCount 0 1 ≤ sampleLog1.count_prevotes 0 :=
  ⟨Reachable.add_prevote samplePrevote
      (Reachable.add_proposal sampleProposal Reachable.init),
   (C6_tally_bound sampleLog1
      (Reachable.add_prevote samplePrevote
        (Reachable.add_proposal sampleProposal Reachable.init)) 0 1).1⟩

theorem unopened_step_prevote (s : MessageLog) (pv : PrevoteMessage)
    (ih : ∀ r, dictGet? s.prevotes r = none →
        dictGet? s.tx_whitelist r = none ∧ dictGet? s.tx_blacklist r = none) :
    ∀ r, dictGet? ((s.add_prevote pv).2).prevotes r = none →
        dictGet? ((s.add_prevote pv).2).tx_whitelist r = none ∧
        dictGet? ((s.add_prevote pv).2).tx_blacklist r = none := by
  intro r hnone
  cases hq : dictGet? s.prevotes pv.round with
  | none =>
    rw [add_prevote_eq_of_fresh s pv hq] at hnone ⊢
    by_cases hr : r = pv.round
    · subst hr
      rw [dictGet?_set_self] at hnone
      cases hnone
    · rw [dictGet?_set_ne _ hr] at hnone
      have hu := ih r hnone
      constructor
      · cases hcand : s.get_candidate pv.hash with
        | none =>
          simp only [hcand, dictGet?_set_ne _ hr]
          exact hu.1
        | some b =>
          simp only [hcand, dictGet?_set_ne _ hr]
          exact hu.1
      · simp only [dictGet?_set_ne _ hr]
        exact hu.2
  | some pvs =>
    by_cases hany : pvs.any (fun vote => vote.pubkey = pv.pubkey) = true
    · have hmem : ∃ v ∈ dictGetD s.prevotes pv.round [], v.pubkey = pv.pubkey := by
        rw [List.any_eq_true] at hany
        obtain ⟨v, hv, hp⟩ := hany
        exact ⟨v, by rw [dictGetD_of_get?_some hq]; exact hv, by simpa using hp⟩
      rw [add_prevote_dup s pv hmem] at hnone ⊢
      exact ih r hnone
    · have hf : pvs.any (fun vote => vote.pubkey = pv.pubkey) = false := by
        cases hb : pvs.any (fun vote => vote.pubkey = pv.pubkey)
        · rfl
        · exact absurd hb hany
      rw [add_prevote_eq_of_open s pv pvs hq hf] at hnone ⊢
      by_cases hr : r = pv.round
      · subst hr
        rw [dictGet?_set_self] at hnone
        cases hnone
      · rw [dictGet?_set_ne _ hr] at hnone
        have hu := ih r hnone
        constructor
        · cases hcand : s.get_candidate pv.hash with
          | none =>
            simp only [hcand]
            exact hu.1
          | some b =>
            simp only [hcand, dictGet?_set_ne _ hr]
            exact hu.1
        · simp only [dictGet?_set_ne _ hr]
          exact hu.2

theorem reachable_unopened (s : MessageLog) (hs : Reachable s) :
    ∀ r, dictGet? s.prevotes r = none →
        dictGet? s.tx_whitelist r = none ∧ dictGet? s.tx_blacklist r = none := by
  induction hs with
  | init => exact fun r _ => ⟨rfl, rfl⟩
  | reset ih => exact fun r _ => ⟨rfl, rfl⟩
  | add_prevote pv hr ih => exact unopened_step_prevote _ pv ih
  | @add_precommit s1 pc hr ih =>
    intro r
    have hf := add_precommit_frame s1 pc
    rw [hf.1, hf.2.2.1, hf.2.2.2]
    exact ih r
  | @add_proposal s1 p hr ih =>
    intro r
    have hf := add_proposal_frame s1 p
    rw [hf.1, hf.2.2.1, hf.2.2.2]
    exact ih r
  | @add_message s1 m hr ih =>
    cases m with
    | prevote pv => exact unopened_step_prevote s1 pv ih
    | precommit pc =>
      intro r
      have hf := add_precommit_frame s1 pc
      simp only [add_message]
      rw [hf.1, hf.2.2.1, hf.2.2.2]
      exact ih r
    | proposal p =>
      intro r
      have hf := add_proposal_frame s1 p
      simp only [add_message]
      rw [hf.1, hf.2.2.1, hf.2.2.2]
      exact ih r

/-- C3: whitelist tally on `add_prevote` — for a prevote whose pubkey is not
yet recorded at its round (in a reachable state), when the candidate block of
`pv.hash` is known, each transaction hash of the block body that the voter did
not flag invalid has its whitelist counter incremented by exactly 1
(initializing an absent counter to 0 first), while flagged transactions
receive no whitelist increment from this prevote. -/
theorem C3_whitelist_tally (log : MessageLog) (pv : PrevoteMessage) (B : Block)
    (hre : Reachable log)
    (hfr : ∀ v ∈ log.prevoteList pv.round, v.pubkey ≠ pv.pubkey)
    (hcand : log.get_candidate pv.hash = some B) :
    (log.add_prevote pv).1 = true ∧
    (∀ t, t ∈ B.body.transactions.map get_tx_hash → t ∉ pv.invalid_txs →
      ((log.add_prevote pv).2).wlCount pv.round t = log.wlCount pv.round t + 1) ∧
    (∀ t, t ∈ pv.invalid_txs →
      ((log.add_prevote pv).2).wlCount pv.round t = log.wlCount pv.round t) := by
  cases hq : dictGet? log.prevotes pv.round with
  | none =>
    have hcons := reachable_unopened log hre pv.round hq
    have hwl0 : dictGetD log.tx_whitelist pv.round [] = [] :=
      dictGetD_of_get?_none hcons.1 []
    rw [add_prevote_eq_of_fresh log pv hq]
    refine ⟨rfl, fun t ht hnt => ?_, fun t ht => ?_⟩
    · have hmem : t ∈ (B.body.transactions.map get_tx_hash).dedup.filter
          (fun t => t ∉ pv.invalid_txs.dedup) := by
        rw [List.mem_filter]
        refine ⟨List.mem_dedup.2 ht, ?_⟩
        simp [List.mem_dedup, hnt]
      have hcount : ((B.body.transactions.map get_tx_hash).dedup.filter
          (fun t => t ∉ pv.invalid_txs.dedup)).count t = 1 :=
        List.count_eq_one_of_mem (List.Nodup.filter _ (List.nodup_dedup _)) hmem
      simp only [wlCount, hcand, dictGetD_set_self, foldl_wlStep_count, dictGetD_nil,
        hwl0, hcount]
      simp [hnt]
    · simp only [wlCount, hcand, dictGetD_set_self, foldl_wlStep_count, dictGetD_nil,
        hwl0]
      simp [ht]
  | some pvs =>
    have hpl : log.prevoteList pv.round = pvs := by
      simp only [prevoteList]
      exact dictGetD_of_get?_some hq []
    have hf : pvs.any (fun vote => vote.pubkey = pv.pubkey) = false := by
      apply any_pubkey_eq_false_of_forall
      intro v hv
      exact hfr v (by rw [hpl]; exact hv)
    rw [add_prevote_eq_of_open log pv pvs hq hf]
    refine ⟨rfl, fun t ht hnt => ?_, fun t ht => ?_⟩
    · have hmem : t ∈ (B.body.transactions.map get_tx_hash).dedup.filter
          (fun t => t ∉ pv.invalid_txs.dedup) := by
        rw [List.mem_filter]
        refine ⟨List.mem_dedup.2 ht, ?_⟩
        simp [List.mem_dedup, hnt]
      have hcount : ((B.body.transactions.map get_tx_hash).dedup.filter
          (fun t => t ∉ pv.invalid_txs.dedup)).count t = 1 :=
        List.count_eq_one_of_mem (List.Nodup.filter _ (List.nodup_dedup _)) hmem
      simp only [wlCount, hcand, dictGetD_set_self, foldl_wlStep_count, hcount]
      simp [hnt]
    · simp only [wlCount, hcand, dictGetD_set_self, foldl_wlStep_count]
      simp [ht]

/-- Witness for C3: adding `samplePrevote` (pubkey 5, target 10, tx 3 flagged)
to `sampleLog0` (which knows the candidate block for hash 10) increments the
whitelist counters of txs 1 and 2 to 1 and leaves tx 3 at 0. -/
theorem C3_whitelist_tally_witness :
    Reachable sampleLog0 ∧
    (∀ v ∈ sampleLog0.prevoteList samplePrevote.round, v.pubkey ≠ samplePrevote.pubkey) ∧
    sampleLog0.get_candidate samplePrevote.hash = some sampleBlock ∧
    ((sampleLog0.add_prevote samplePrevote).2).wlCount 0 1 = sampleLog0.wlCount 0 1 + 1 ∧
    ((sampleLog0.add_prevote samplePrevote).2).wlCount 0 3 = sampleLog0.wlCount 0 3 :=
  ⟨Reachable.add_proposal sampleProposal Reachable.init, by decide, by decide,
   (C3_whitelist_tally sampleLog0 samplePrevote sampleBlock
      (Reachable.add_proposal sampleProposal Reachable.init) (by decide) (by decide)).2.1
     1 (by decide) (by decide),
   (C3_whitelist_tally sampleLog0 samplePrevote sampleBlock
      (Reachable.add_proposal sampleProposal Reachable.init) (by decide) (by decide)).2.2
     3 (by decide)⟩

/-- C4: blacklist tally on `add_prevote` — for a prevote whose pubkey is not
yet recorded at its round (in a reachable state), every hash in
`pv.invalid_txs` has its blacklist counter incremented by exactly 1
(initializing an absent counter to 0); this happens even when the target is
nil or names an unknown block, in which case the round's whitelist table is
left completely unchanged. -/
theorem C4_blacklist_tally (log : MessageLog) (pv : PrevoteMessage)
    (hre : Reachable log)
    (hfr : ∀ v ∈ log.prevoteList pv.round, v.pubkey ≠ pv.pubkey) :
    (log.add_prevote pv).1 = true ∧
    (∀ t, t ∈ pv.invalid_txs →
      ((log.add_prevote pv).2).blCount pv.round t = log.blCount pv.round t + 1) ∧
    (log.get_candidate pv.hash = none →
      dictGetD ((log.add_prevote pv).2).tx_whitelist pv.round [] =
        dictGetD log.tx_whitelist pv.round []) := by
  cases hq : dictGet? log.prevotes pv.round with
  | none =>
    have hcons := reachable_unopened log hre pv.round hq
    have hbl0 : dictGetD log.tx_blacklist pv.round [] = [] :=
      dictGetD_of_get?_none hcons.2 []
    have hwl0 : dictGetD log.tx_whitelist pv.round [] = [] :=
      dictGetD_of_get?_none hcons.1 []
    rw [add_prevote_eq_of_fresh log pv hq]
    refine ⟨rfl, fun t ht => ?_, fun hcand => ?_⟩
    · have hcount : pv.invalid_txs.dedup.count t = 1 := by
        rw [List.count_dedup]
        simp [ht]
      simp only [blCount, dictGetD_set_self, foldl_blStep_count, dictGetD_nil,
        hbl0, hcount]
    · simp only [hcand, dictGetD_set_self, hwl0]
  | some pvs =>
    have hpl : log.prevoteList pv.round = pvs := by
      simp only [prevoteList]
      exact dictGetD_of_get?_some hq []
    have hf : pvs.any (fun vote => vote.pubkey = pv.pubkey) = false := by
      apply any_pubkey_eq_false_of_forall
      intro v hv
      exact hfr v (by rw [hpl]; exact hv)
    rw [add_prevote_eq_of_open log pv pvs hq hf]
    refine ⟨rfl, fun t ht => ?_, fun hcand => ?_⟩
    · have hcount : pv.invalid_txs.dedup.count t = 1 := by
        rw [List.count_dedup]
        simp [ht]
      simp only [blCount, dictGetD_set_self, foldl_blStep_count, hcount]
    · simp only [hcand]

/-- Witness for C4: adding `samplePrevote2` (pubkey 5, target 99 with no
stored candidate, tx 7 flagged) to `sampleLog0` increments the blacklist
counter of tx 7 and leaves the round-0 whitelist table unchanged. -/
theorem C4_blacklist_tally_witness :
    Reachable sampleLog0 ∧
    (∀ v ∈ sampleLog0.prevoteList samplePrevote2.round, v.pubkey ≠ samplePrevote2.pubkey) ∧
    sampleLog0.get_candidate samplePrevote2.hash = none ∧
    ((sampleLog0.add_prevote samplePrevote2).2).blCount 0 7 = sampleLog0.blCount 0 7 + 1 ∧
    dictGetD ((sampleLog0.add_prevote samplePrevote2).2).tx_whitelist 0 [] =
      dictGetD sampleLog0.tx_whitelist 0 [] :=
  ⟨Reachable.add_proposal sampleProposal Reachable.init, by decide, by decide,
   (C4_blacklist_tally sampleLog0 samplePrevote2
      (Reachable.add_proposal sampleProposal Reachable.init) (by decide)).2.1 7 (by decide),
   (C4_blacklist_tally sampleLog0 samplePrevote2
      (Reachable.add_proposal sampleProposal Reachable.init) (by decide)).2.2 (by decide)⟩

theorem count_prevotes_for_add_prevote_mono (log : MessageLog) (pv : PrevoteMessage)
    (R : Nat) (h : Option Hash) :
    log.count_prevotes_for R h ≤ ((log.add_prevote pv).2).count_prevotes_for R h := by
  cases hq : dictGet? log.prevotes pv.round with
  | none =>
    rw [add_prevote_eq_of_fresh log pv hq]
    simp only [count_prevotes_for]
    by_cases hr : R = pv.round
    · subst hr
      rw [dictGetD_of_get?_none hq]
      simp
    · rw [dictGetD_set_ne _ hr]
  | some pvs =>
    by_cases hany : pvs.any (fun vote => vote.pubkey = pv.pubkey) = true
    · have hmem : ∃ v ∈ dictGetD log.prevotes pv.round [], v.pubkey = pv.pubkey := by
        rw [List.any_eq_true] at hany
        obtain ⟨v, hv, hp⟩ := hany
        exact ⟨v, by rw [dictGetD_of_get?_some hq]; exact hv, by simpa using hp⟩
      rw [add_prevote_dup log pv hmem]
    · have hf : pvs.any (fun vote => vote.pubkey = pv.pubkey) = false := by
        cases hb : pvs.any (fun vote => vote.pubkey = pv.pubkey)
        · rfl
        · exact absurd hb hany
      rw [add_prevote_eq_of_open log pv pvs hq hf]
      simp only [count_prevotes_for]
      by_cases hr : R = pv.round
      · subst hr
        rw [dictGetD_set_self, dictGetD_of_get?_some hq, List.filter_append,
          List.length_append]
        exact Nat.le_add_right _ _
      · rw [dictGetD_set_ne _ hr]

theorem count_precommits_for_add_precommit_mono (log : MessageLog) (pc : PrecommitMessage)
    (R : Nat) (h : Option Hash) :
    log.count_precommits_for R h ≤ ((log.add_precommit pc).2).count_precommits_for R h := by
  have hl := add_precommit_precommitList log pc R
  have e : dictGetD ((log.add_precommit pc).2).precommits R [] =
      ((log.add_precommit pc).2).precommitList R := rfl
  simp only [count_precommits_for]
  rw [e, hl]
  split
  · rename_i hcond
    obtain ⟨hr, -⟩ := hcond
    subst hr
    simp only [precommitList, List.filter_append, List.length_append]
    exact Nat.le_add_right _ _
  · exact le_rfl

/-- C8: adding any message (proposal, prevote or precommit) never decreases
`count_prevotes_for` or `count_precommits_for` at any round and target (nil
included); hence `has_prevote_quorum` and `has_precommit_quorum` never flip
from true to false by adding a message. -/
theorem C8_quorum_monotonicity (log : MessageLog) (m : Message) (R : Nat)
    (h : Option Hash) (th : Int) :
    log.count_prevotes_for R h ≤ ((log.add_message m).2).count_prevotes_for R h ∧
    log.count_precommits_for R h ≤ ((log.add_message m).2).count_precommits_for R h ∧
    (log.has_prevote_quorum R h th = true →
      ((log.add_message m).2).has_prevote_quorum R h th = true) ∧
    (log.has_precommit_quorum R h th = true →
      ((log.add_message m).2).has_precommit_quorum R h th = true) := by
  have hpv : log.count_prevotes_for R h ≤ ((log.add_message m).2).count_prevotes_for R h := by
    cases m with
    | prevote pv => exact count_prevotes_for_add_prevote_mono log pv R h
    | precommit pc =>
      simp only [add_message, count_prevotes_for, (add_precommit_frame log pc).1]
      exact le_rfl
    | proposal p =>
      simp only [add_message, count_prevotes_for, (add_proposal_frame log p).1]
      exact le_rfl
  have hpc : log.count_precommits_for R h ≤
      ((log.add_message m).2).count_precommits_for R h := by
    cases m with
    | prevote pv =>
      simp only [add_message, count_precommits_for, add_prevote_precommits_eq log pv]
      exact le_rfl
    | precommit pc => exact count_precommits_for_add_precommit_mono log pc R h
    | proposal p =>
      simp only [add_message, count_precommits_for, (add_proposal_frame log p).2.1]
      exact le_rfl
  refine ⟨hpv, hpc, fun hq => ?_, fun hq => ?_⟩
  · simp only [has_prevote_quorum, decide_eq_true_eq] at hq ⊢
    omega
  · simp only [has_precommit_quorum, decide_eq_true_eq] at hq ⊢
    omega

/-- Witness for C8: `sampleLog0` has a prevote quorum for hash 10 at round 0
with threshold 0; after adding `samplePrevote` through `add_message` it still
does. -/
theorem C8_quorum_monotonicity_witness :
    sampleLog0.has_prevote_quorum 0 (some 10) 0 = true ∧
    ((sampleLog0.add_message (Message.prevote samplePrevote)).2).has_prevote_quorum
      0 (some 10) 0 = true :=
  ⟨by decide,
   (C8_quorum_monotonicity sampleLog0 (Message.prevote samplePrevote) 0 (some 10) 0).2.2.1
     (by decide)⟩

/-- C7: immediately after `reset()` every query returns its empty answer:
`count_prevotes_for` and `count_precommits_for` are 0 for every round and
target (nil included), `get_candidate` is nil for every hash, and
`get_invalid_txs` / `get_valid_txs` are empty for every round and threshold. -/
theorem C7_reset_completeness (log : MessageLog) :
    (∀ R : Nat, ∀ h : Option Hash, (log.reset).count_prevotes_for R h = 0) ∧
    (∀ R : Nat, ∀ h : Option Hash, (log.reset).count_precommits_for R h = 0) ∧
    (∀ h : Option Hash, (log.reset).get_candidate h = none) ∧
    (∀ R : Nat, ∀ th : Int, (log.reset).get_invalid_txs R th = []) ∧
    (∀ R : Nat, ∀ th : Int, (log.reset).get_valid_txs R th = []) := by
  refine ⟨fun R h => rfl, fun R h => rfl, fun h => ?_, fun R th => rfl, fun R th => rfl⟩
  cases h <;> rfl

/-- C9 (implicit): the read operations are total and return their empty answer
on never-recorded arguments: vote counts are 0 for a round with no recorded
votes, `get_candidate` is nil for an unknown hash (and for a nil argument),
and the valid/invalid transaction queries are empty for a round never opened
by a prevote. -/
theorem C9_query_totality (log : MessageLog) (R : Nat) (h : Hash) (th : Int) :
    (dictGet? log.prevotes R = none →
      log.count_prevotes R = 0 ∧ ∀ h' : Option Hash, log.count_prevotes_for R h' = 0) ∧
    (dictGet? log.precommits R = none →
      log.count_precommits R = 0 ∧ ∀ h' : Option Hash, log.count_precommits_for R h' = 0) ∧
    (dictGet? log.proposals h = none → log.get_candidate (some h) = none) ∧
    log.get_candidate none = none ∧
    (dictGet? log.tx_blacklist R = none → log.get_invalid_txs R th = []) ∧
    (dictGet? log.tx_whitelist R = none → log.get_valid_txs R th = []) := by
  refine ⟨fun hn => ⟨?_, fun h' => ?_⟩, fun hn => ⟨?_, fun h' => ?_⟩,
    fun hn => ?_, rfl, fun hn => ?_, fun hn => ?_⟩
  · simp [count_prevotes, dictGetD_of_get?_none hn]
  · simp [count_prevotes_for, dictGetD_of_get?_none hn]
  · simp [count_precommits, dictGetD_of_get?_none hn]
  · simp [count_precommits_for, dictGetD_of_get?_none hn]
  · simp [get_candidate, hn]
  · simp [get_invalid_txs, dictGetD_of_get?_none hn]
  · simp [get_valid_txs, dictGetD_of_get?_none hn]

/-- Witness for C9 at a concrete populated log: round 3 and hash 4 were never
recorded in `sampleLog1`, and every query returns its empty answer there. -/
theorem C9_query_totality_witness :
    dictGet? sampleLog1.prevotes 3 = none ∧
    sampleLog1.count_prevotes 3 = 0 ∧
    dictGet? sampleLog1.precommits 3 = none ∧
    sampleLog1.count_precommits_for 3 none = 0 ∧
    dictGet? sampleLog1.proposals 4 = none ∧
    sampleLog1.get_candidate (some 4) = none ∧
    dictGet? sampleLog1.tx_blacklist 3 = none ∧
    sampleLog1.get_invalid_txs 3 2 = [] :=
  ⟨by decide, ((C9_query_totality sampleLog1 3 4 2).1 (by decide)).1,
   by decide, ((C9_query_totality sampleLog1 3 4 2).2.1 (by decide)).2 none,
   by decide, (C9_query_totality sampleLog1 3 4 2).2.2.1 (by decide),
   by decide, (C9_query_totality sampleLog1 3 4 2).2.2.2.2.1 (by decide)⟩

/-- C2: a duplicate prevote is an atomic no-op: when the pubkey already has a
Vote at round `pv.round`, `add_prevote` returns `false` and the whole log
state is unchanged (stored target kept, tallies untouched, even for a
different target); consequently two consecutive `add_prevote pv` calls yield
the same state as one, the second returning `false`. -/
theorem C2_duplicate_prevote_noop (log : MessageLog) (pv : PrevoteMessage)
    (h : ∃ v ∈ log.prevoteList pv.round, v.pubkey = pv.pubkey) :
    log.add_prevote pv = (false, log) ∧
    ∀ l : MessageLog, (l.add_prevote pv).2.add_prevote pv = (false, (l.add_prevote pv).2) := by
  constructor
  · exact add_prevote_dup log pv h
  · intro l
    exact add_prevote_dup _ pv (add_prevote_pubkey_mem_after l pv)

/-- Witness for C2: pubkey 5 already voted at round 0 of `sampleLog1`; a second
prevote from pubkey 5 with a different target and invalid set is rejected and
the state — including the stored target and both tallies — is unchanged. -/
theorem C2_duplicate_prevote_noop_witness :
    (∃ v ∈ sampleLog1.prevoteList samplePrevote2.round, v.pubkey = samplePrevote2.pubkey) ∧
    sampleLog1.add_prevote samplePrevote2 = (false, sampleLog1) :=
  ⟨by decide,
   (C2_duplicate_prevote_noop sampleLog1 samplePrevote2 (by decide)).1⟩

/-- C5: `add_proposal` is first-writer-wins and touches nothing but the
proposals map: a known hash yields `false` with the whole log (and the
originally stored block) unchanged; a fresh hash yields `true` and only adds
the block under its header hash. `prevotes`, `precommits`, `tx_whitelist`
and `tx_blacklist` are never modified, so a proposal arriving after early
prevotes never retroactively re-tallies them. -/
theorem C5_add_proposal_first_writer_wins (log : MessageLog) (p : ProposeBlockRequest) :
    ((log.add_proposal p).2).prevotes = log.prevotes ∧
    ((log.add_proposal p).2).precommits = log.precommits ∧
    ((log.add_proposal p).2).tx_whitelist = log.tx_whitelist ∧
    ((log.add_proposal p).2).tx_blacklist = log.tx_blacklist ∧
    ((dictGet? log.proposals p.block.header.hash).isSome = true →
      log.add_proposal p = (false, log)) ∧
    (dictGet? log.proposals p.block.header.hash = none →
      log.add_proposal p =
        (true, { log with
          proposals := dictSet log.proposals p.block.header.hash p.block })) := by
  refine ⟨?_, ?_, ?_, ?_, add_proposal_known log p, add_proposal_new log p⟩ <;>
    · simp only [add_proposal]
      split <;> rfl

/-- Witness for C5: re-adding the proposal for hash 10 to `sampleLog1` (which
has recorded prevote tallies) is rejected with the whole state unchanged, and
adding it to a fresh log succeeds, changing only the proposals map. -/
theorem C5_add_proposal_first_writer_wins_witness :
    (dictGet? sampleLog1.proposals sampleProposal.block.header.hash).isSome = true ∧
    sampleLog1.add_proposal sampleProposal = (false, sampleLog1) ∧
    dictGet? MessageLog.init.proposals sampleProposal.block.header.hash = none ∧
    MessageLog.init.add_proposal sampleProposal =
      (true, { MessageLog.init with
        proposals := dictSet MessageLog.init.proposals
          sampleProposal.block.header.hash sampleProposal.block }) :=
  ⟨by decide,
   (C5_add_proposal_first_writer_wins sampleLog1 sampleProposal).2.2.2.2.1 (by decide),
   by decide,
   (C5_add_proposal_first_writer_wins MessageLog.init sampleProposal).2.2.2.2.2 (by decide)⟩

/-- C10 (implicit): a single `add_prevote` call increments each blacklist and
each whitelist counter of its round by at most 1, even when the prevote's
`invalid_txs` or the candidate block's body contain repeated hashes — the
occurrences are collapsed into a set before tallying. -/
theorem C10_per_prevote_dedup (log : MessageLog) (pv : PrevoteMessage) (t : Hash) :
    ((log.add_prevote pv).2).blCount pv.round t ≤ log.blCount pv.round t + 1 ∧
    ((log.add_prevote pv).2).wlCount pv.round t ≤ log.wlCount pv.round t + 1 := by
  cases hq : dictGet? log.prevotes pv.round with
  | none =>
    rw [add_prevote_eq_of_fresh log pv hq]
    constructor
    · have hc : pv.invalid_txs.dedup.count t ≤ 1 :=
        List.nodup_iff_count_le_one.1 (List.nodup_dedup _) t
      simp only [blCount, dictGetD_set_self, foldl_blStep_count, dictGetD_nil]
      omega
    · cases hcand : log.get_candidate pv.hash with
      | none =>
        simp only [wlCount, hcand, dictGetD_set_self, dictGetD_nil]
        omega
      | some b =>
        have hc : ((b.body.transactions.map get_tx_hash).dedup.filter
            (fun t => t ∉ pv.invalid_txs.dedup)).count t ≤ 1 :=
          List.nodup_iff_count_le_one.1 (List.Nodup.filter _ (List.nodup_dedup _)) t
        simp only [wlCount, hcand, dictGetD_set_self, foldl_wlStep_count, dictGetD_nil]
        split
        · omega
        · omega
  | some pvs =>
    by_cases hany : pvs.any (fun vote => vote.pubkey = pv.pubkey) = true
    · have hmem : ∃ v ∈ dictGetD log.prevotes pv.round [], v.pubkey = pv.pubkey := by
        rw [List.any_eq_true] at hany
        obtain ⟨v, hv, hp⟩ := hany
        exact ⟨v, by rw [dictGetD_of_get?_some hq]; exact hv, by simpa using hp⟩
      rw [add_prevote_dup log pv hmem]
      exact ⟨Nat.le_succ _, Nat.le_succ _⟩
    · have hf : pvs.any (fun vote => vote.pubkey = pv.pubkey) = false := by
        cases hb : pvs.any (fun vote => vote.pubkey = pv.pubkey)
        · rfl
        · exact absurd hb hany
      rw [add_prevote_eq_of_open log pv pvs hq hf]
      constructor
      · have hc : pv.invalid_txs.dedup.count t ≤ 1 :=
          List.nodup_iff_count_le_one.1 (List.nodup_dedup _) t
        simp only [blCount, dictGetD_set_self, foldl_blStep_count]
        omega
      · cases hcand : log.get_candidate pv.hash with
        | none =>
          simp only [wlCount, hcand]
          exact Nat.le_succ _
        | some b =>
          have hc : ((b.body.transactions.map get_tx_hash).dedup.filter
              (fun t => t ∉ pv.invalid_txs.dedup)).count t ≤ 1 :=
            List.nodup_iff_count_le_one.1 (List.Nodup.filter _ (List.nodup_dedup _)) t
          simp only [wlCount, hcand, dictGetD_set_self, foldl_wlStep_count]
          split
          · omega
          · omega

end MessageLog

end FedChain
